import Mathlib

/-!
# go-hook: a verification development for `main.go`

The program reads a hook path and a list of domain specifiers, flattens the
specifiers on commas, checks that the hook exists and is executable, and runs
the hook once per domain with four environment variables.

Go strings are modelled as lists of characters (`GoString`); every library
routine used by `main.go` that inspects a string looks for ASCII characters
only (`,`, `\n`, `%` and the directive syntax of `fmt`), so the model covers
every valid UTF-8 string.  Go `int` values are modelled as `Int`; the only
integers computed are list lengths and positions, which never overflow.
-/

namespace GoHook

/-- A Go string, as the sequence of its characters. -/
abbrev GoString := List Char

/-! ## Library routines from `strings` and `strconv` -/

/-- The function `strings.Split(s, sep)` for a separator of one character:
the pieces of `s` between the occurrences of `sep`, in order.  A string
without the separator (the empty string included) yields one piece. -/
def Split : GoString → Char → List GoString
  | [], _ => [[]]
  | c :: cs, sep =>
    if c = sep then [] :: Split cs sep
    else
      match Split cs sep with
      | [] => [[c]]
      | p :: ps => (c :: p) :: ps

/-- The function `strings.Join(elems, sep)`. -/
def Join : List GoString → GoString → GoString
  | [], _ => []
  | [e], _ => e
  | e :: e2 :: es, sep => e ++ sep ++ Join (e2 :: es) sep

/-- The function `strings.TrimRight(s, cutset)`: `s` without its longest
suffix made of characters of `cutset`. -/
def TrimRight (s : GoString) (cutset : GoString) : GoString :=
  (s.reverse.dropWhile (fun c => decide (c ∈ cutset))).reverse

/-- The function `strconv.Itoa`: the decimal text of an integer. -/
def Itoa (i : Int) : GoString :=
  if i < 0 then '-' :: Nat.toDigits 10 i.natAbs else Nat.toDigits 10 i.toNat

/-! ## `fmt.Sprintf` for string operands

`printlnErr` hands its first argument to `fmt.Sprintf` as the format.  The
definitions below follow `doPrintf` of the Go library (`fmt/print.go`) for
operands that are all strings, which is the only kind `main.go` passes.  The
result is `none` where a directive would format an operand in a way this
development does not describe (a verb other than `%s` or a plain `%v`, or a
width or precision, applied to a present operand), and when the step budget of
`doPrintf` runs out.  `Sprintf` gives a budget above the length of the format,
and every directive consumes at least its `%`; with no operand every format
has a result (`Sprintf_nil`). -/

/-- The function `tooLarge` of `fmt/print.go`. -/
def tooLarge (x : Nat) : Bool := decide (x > 1000000)

/-- The loop of `parsenum`: reads decimal digits from the front of the
segment; an overlong number gives up and skips to the end of the segment. -/
def parsenumLoop : List Char → Nat → Bool → Nat × Bool × List Char
  | [], num, isnum => (num, isnum, [])
  | c :: cs, num, isnum =>
    if '0' ≤ c ∧ c ≤ '9' then
      if tooLarge num then (0, false, [])
      else parsenumLoop cs (num * 10 + (c.toNat - '0'.toNat)) true
    else (num, isnum, c :: cs)

/-- The function `parsenum(s, start, end)` on the segment `s[start:end]`:
the number, whether one was present, and what is left of the segment. -/
def parsenum (seg : List Char) : Nat × Bool × List Char :=
  parsenumLoop seg 0 false

/-- The function `parseArgNumber`: `format` starts with `[`.  Returns the
zero-based index, the format after the consumed characters, and whether the
bracketed number parsed. -/
def parseArgNumber (format : List Char) : Int × List Char × Bool :=
  if format.length < 3 then (0, format.drop 1, false)
  else
    let body := format.drop 1
    match body.dropWhile (fun c => c != ']') with
    | [] => (0, body, false)
    | _ :: after =>
      match parsenum (body.takeWhile (fun c => c != ']')) with
      | (width, ok, left) =>
        if !ok || !left.isEmpty then (0, after, false)
        else ((width : Int) - 1, after, true)

/-- The parsing state of one directive of `doPrintf`. -/
structure Directive where
  /-- The format still to be read. -/
  rest : List Char
  /-- The position of the next operand. -/
  argNum : Nat
  /-- The field `p.reordered`. -/
  reordered : Bool
  /-- The field `p.goodArgNum`. -/
  goodArgNum : Bool
  /-- The local `afterIndex`. -/
  afterIndex : Bool
  /-- The text written to the buffer by this directive so far. -/
  out : GoString

/-- The method `argNumber`: an explicit operand index `[n]` at the front of
the format, if there is one. -/
def argNumber (d : Directive) (numArgs : Nat) : Directive :=
  match d.rest with
  | '[' :: _ =>
    match parseArgNumber d.rest with
    | (index, rest, ok) =>
      if ok && decide (0 ≤ index) && decide (index < numArgs) then
        { d with argNum := index.toNat, rest := rest, afterIndex := true, reordered := true }
      else
        { d with rest := rest, afterIndex := ok, reordered := true, goodArgNum := false }
  | _ => { d with afterIndex := false }

/-- The flag loop of `doPrintf` (label `simpleFormat`): skips the flag
characters and records `#`, the only flag that matters for a string operand
printed without width. -/
def skipFlags : List Char → Bool → Bool × List Char
  | [], sharp => (sharp, [])
  | c :: cs, sharp =>
    if c = '#' then skipFlags cs true
    else if c = '0' ∨ c = '+' ∨ c = '-' ∨ c = ' ' then skipFlags cs sharp
    else (sharp, c :: cs)

/-- The method `printArg` for a string operand, in the cases described:
`%s` and `%v` without `#`, without width and precision, write the operand. -/
def printArg (arg : GoString) (verb : Char) (sharp widPresent precPresent : Bool) :
    Option GoString :=
  if (verb = 's' ∨ (verb = 'v' ∧ sharp = false)) ∧ widPresent = false ∧ precPresent = false
  then some arg else none

/-- The width part of a directive: `*` takes the width from an operand (a
string operand is no integer, so `%!(BADWIDTH)` is written), otherwise a
number is read. Returns the state and whether a width is present. -/
def parseWidth (d : Directive) (numArgs : Nat) : Directive × Bool :=
  match d.rest with
  | '*' :: r =>
    ({ d with rest := r, argNum := if d.argNum < numArgs then d.argNum + 1 else d.argNum,
              afterIndex := false, out := d.out ++ "%!(BADWIDTH)".toList }, false)
  | _ =>
    match parsenum d.rest with
    | (_, widPresent, r) =>
      ({ d with rest := r,
                goodArgNum := if d.afterIndex && widPresent then false else d.goodArgNum },
        widPresent)

/-- The precision part of a directive, entered when the format continues
with `.`. Returns the state and whether a precision is present. -/
def parsePrecision (d : Directive) (numArgs : Nat) : Directive × Bool :=
  match d.rest with
  | '.' :: r =>
    let d1 := argNumber
      { d with rest := r, goodArgNum := if d.afterIndex then false else d.goodArgNum } numArgs
    match d1.rest with
    | '*' :: r1 =>
      ({ d1 with rest := r1, argNum := if d1.argNum < numArgs then d1.argNum + 1 else d1.argNum,
                 afterIndex := false, out := d1.out ++ "%!(BADPREC)".toList }, false)
    | _ =>
      match parsenum d1.rest with
      | (_, _, r1) => ({ d1 with rest := r1 }, true)
  | _ => (d, false)

/-- The part of a directive between the flags and the verb: operand index,
width, precision, operand index.  Returns the state and whether a width and
a precision are present. -/
def beforeVerb (d0 : Directive) (numArgs : Nat) : Directive × Bool × Bool :=
  let d1 := argNumber d0 numArgs
  let w := parseWidth d1 numArgs
  let pr := parsePrecision w.1 numArgs
  let d4 := if pr.1.afterIndex then pr.1 else argNumber pr.1 numArgs
  (d4, w.2, pr.2)

/-- The end of a directive: the verb is read and acted upon. -/
def verbStep (d4 : Directive) (a : List GoString) (sharp widPresent precPresent : Bool) :
    Option Directive :=
  match d4.rest with
  | [] => some { d4 with out := d4.out ++ "%!(NOVERB)".toList }
  | verb :: r =>
    if verb = '%' then some { d4 with rest := r, out := d4.out ++ ['%'] }
    else if d4.goodArgNum = false then
      some { d4 with rest := r, out := d4.out ++ "%!".toList ++ [verb] ++ "(BADINDEX)".toList }
    else if d4.argNum ≥ a.length then
      some { d4 with rest := r, out := d4.out ++ "%!".toList ++ [verb] ++ "(MISSING)".toList }
    else
      (printArg (a.getD d4.argNum []) verb sharp widPresent precPresent).map fun text =>
        { d4 with rest := r, argNum := d4.argNum + 1, out := d4.out ++ text }

/-- One directive of `doPrintf`: the format after a `%`, up to and including
the verb.  A lower-case verb right after the flags, with an operand left,
takes the short way and prints the operand at once. -/
def directive (afterPercent : List Char) (a : List GoString) (argNum : Nat) (reordered : Bool) :
    Option Directive :=
  match skipFlags afterPercent false with
  | (sharp, r0) =>
    let fast : Option (Char × List Char) :=
      match r0 with
      | c :: cs => if 'a' ≤ c ∧ c ≤ 'z' ∧ argNum < a.length then some (c, cs) else none
      | [] => none
    match fast with
    | some (c, cs) =>
      (printArg (a.getD argNum []) c sharp false false).map fun text =>
        { rest := cs, argNum := argNum + 1, reordered := reordered, goodArgNum := true,
          afterIndex := false, out := text }
    | none =>
      match beforeVerb
        { rest := r0, argNum := argNum, reordered := reordered, goodArgNum := true,
          afterIndex := false, out := [] } a.length with
      | (d4, widPresent, precPresent) => verbStep d4 a sharp widPresent precPresent

/-- The check for unused operands at the end of `doPrintf`. -/
def extraOperands (a : List GoString) (argNum : Nat) (reordered : Bool) : GoString :=
  if reordered = false ∧ argNum < a.length then
    "%!(EXTRA ".toList
      ++ Join ((a.drop argNum).map fun arg => "string=".toList ++ arg) ", ".toList
      ++ [')']
  else []

/-- The method `doPrintf`: literal text up to the next `%` is copied, then
one directive is processed; `fuel` bounds the number of directives. -/
def doPrintf : Nat → List Char → List GoString → Nat → Bool → Option GoString
  | 0, _, _, _, _ => none
  | fuel + 1, format, a, argNum, reordered =>
    let text := format.takeWhile (fun c => c != '%')
    match format.dropWhile (fun c => c != '%') with
    | [] => some (text ++ extraOperands a argNum reordered)
    | _ :: afterPercent =>
      match directive afterPercent a argNum reordered with
      | none => none
      | some d =>
        (doPrintf fuel d.rest a d.argNum d.reordered).map fun tail => text ++ d.out ++ tail

/-- The function `fmt.Sprintf(format, a...)`. -/
def Sprintf (format : GoString) (a : List GoString) : Option GoString :=
  doPrintf (format.length + 1) format a 0 false

/-! ## Input resolution (`main`, lines 34-47) -/

/-- The loop of `main` that builds `domainSlice`: every specifier is split
on `,` and its pieces are appended to the slice. -/
def domainSliceOf (domains : List GoString) : List GoString :=
  domains.foldl (fun domainSlice item => domainSlice ++ Split item ',') []

/-- Lines 41-47 of `main`: the text shown for the domain list, given its
first element `first` (line 42 has already read `domainSlice[0]`). -/
def domainStrOf (first : GoString) (domainSlice : List GoString) : Option GoString :=
  let domainNum : Int := domainSlice.length
  if domainNum = 2 then
    Sprintf "%s and %s".toList [first, domainSlice.getD 1 []]
  else if domainNum > 2 then
    Sprintf "%s and 2 more domains".toList [first]
  else some first

/-! ## The environment of the program -/

/-- What `os.Stat` answers for a path. -/
inductive StatResult where
  /-- The entry exists; `mode` is its `FileMode`. -/
  | found (mode : Nat)
  /-- The error satisfies `os.IsNotExist`. -/
  | notExist
  /-- Any other error; no file information is returned. -/
  | failed

/-- What `cmd.Run` leaves behind: the error it returned (its `Error()` text),
if any, and the two captured buffers. -/
structure RunResult where
  /-- The text of the error returned by `cmd.Run`, when there is one. -/
  err : Option GoString
  /-- The captured standard output. -/
  outb : GoString
  /-- The captured standard error. -/
  errb : GoString

/-- The fields of `exec.Cmd` that `processAuthHook` sets. -/
structure Cmd where
  /-- The program to run. -/
  Path : GoString
  /-- The environment of the child process. -/
  Env : List GoString
deriving DecidableEq

/-- Everything outside the program that it consults. -/
structure World where
  /-- The function `os.Stat`. -/
  stat : GoString → StatResult
  /-- The function `os.Getenv`. -/
  getenv : GoString → GoString
  /-- The function `filepath.Abs` (its error is ignored by the program). -/
  abs : GoString → GoString
  /-- The text of the identifier returned by the `n`-th call of `uuid.NewRandom`. -/
  newRandom : Nat → GoString
  /-- The outcome of the `n`-th hook run, which may depend on the command. -/
  run : Nat → Cmd → RunResult

/-- The observable effects of the process so far. -/
structure Proc where
  /-- Everything written to standard output. -/
  stdout : GoString
  /-- Everything written to standard error. -/
  stderr : GoString
  /-- The commands run, oldest first. -/
  runs : List Cmd

/-- The parsed command line (the type `Option` of `main.go`). -/
structure CliOption where
  /-- The flag `--auth-hook`. -/
  AuthHook : GoString
  /-- The occurrences of the flag `--domain`, in order. -/
  Domains : List GoString

/-! ## Printing and the hook run (`main.go`, lines 74-118) -/

/-- The function `printlnErr`: the text it writes to standard error. -/
def printlnErr (format : GoString) (a : List GoString) : Option GoString :=
  (Sprintf format a).bind fun msg => Sprintf "\x1b[31m%s\x1b[0m\n".toList [msg]

/-- The environment built on lines 83-88. -/
def hookEnv (domain validation : GoString) (remainingChallenges : Int)
    (allDomains : GoString) : List GoString :=
  [ "HOOK_DOMAIN=".toList ++ domain,
    "HOOK_VALIDATION=".toList ++ validation,
    "HOOK_REMAINING_CHALLENGES=".toList ++ Itoa remainingChallenges,
    "HOOK_ALL_DOMAINS=".toList ++ allDomains ]

/-- The function `processAuthHook`: runs the hook once and reports; returns
`errCode` and the effects. -/
def processAuthHook (w : World) (p : Proc) (authHook domain validation : GoString)
    (remainingChallenges : Int) (allDomains : GoString) : Option (Int × Proc) :=
  let hookPath := w.abs authHook
  let cmd : Cmd :=
    { Path := hookPath, Env := hookEnv domain validation remainingChallenges allDomains }
  let r := w.run p.runs.length cmd
  let p1 : Proc := { p with runs := p.runs ++ [cmd] }
  match r.err with
  | some e =>
    (printlnErr e []).map fun t => (1, { p1 with stderr := p1.stderr ++ t })
  | none =>
    let outStr := TrimRight r.outb "\n".toList
    let errStr := TrimRight r.errb "\n".toList
    let printed : Option Proc :=
      if outStr.length > 0 then
        (Sprintf "Hook '--auth-hook' for %s ran with output:\n".toList [domain]).map fun t =>
          { p1 with stdout := p1.stdout ++ t ++ (outStr ++ "\n".toList) }
      else some p1
    printed.bind fun p2 =>
      if errStr.length > 0 then
        (printlnErr "Hook '--auth-hook' for %s ran with error output:".toList [domain]).bind
          fun header =>
            (printlnErr errStr []).map fun body =>
              (1, { p2 with stderr := p2.stderr ++ header ++ body })
      else some (0, p2)

/-! ## The program (`main`, lines 28-72) -/

/-- The run-time panics `main` can raise. -/
inductive PanicKind where
  /-- The read `domainSlice[0]` on an empty slice (line 42). -/
  | indexOutOfRange
  /-- The call `file_info.Mode()` on a nil `file_info` (line 57). -/
  | nilDereference
deriving DecidableEq

/-- How the process ends. -/
inductive Status where
  /-- The function `main` returned. -/
  | returned
  /-- The call `os.Exit(code)`. -/
  | exited (code : Int)
  /-- A run-time panic. -/
  | panicked (kind : PanicKind)
deriving DecidableEq

/-- The result of a run: effects, the value of `errTotal`, and the ending. -/
structure Final where
  /-- The effects of the run. -/
  proc : Proc
  /-- The variable `errTotal` at the end. -/
  errTotal : Int
  /-- How the process ended. -/
  status : Status

/-- The loop of lines 67-71 from position `i` on: `domains` are the elements
of `domainSlice` still to be visited. -/
def hookLoop (w : World) (authHook allDomains : GoString) (domainNum : Int) :
    List GoString → Nat → Proc → Int → Option (Int × Proc)
  | [], _, p, errTotal => some (errTotal, p)
  | domain :: rest, i, p, errTotal =>
    let validation := w.newRandom i
    let remainingChallenges := domainNum - i - 1
    match processAuthHook w p authHook domain validation remainingChallenges allDomains with
    | none => none
    | some (errCode, p1) =>
      hookLoop w authHook allDomains domainNum rest (i + 1) p1 (errTotal + errCode)

/-- Lines 57-60: the condition under which the hook is turned away as not
executable, on the `FileMode` returned by `os.Stat` (`Perm` keeps the low
nine bits). -/
def notExecutable (mode : Nat) : Bool :=
  let perm := mode &&& 0o777
  let flag := perm &&& 73
  flag != 73

/-- The function `main`, after `flags.Parse` has filled `opt`. -/
def main (w : World) (opt : CliOption) : Option Final :=
  let authHook := opt.AuthHook
  let domainSlice := domainSliceOf opt.Domains
  let allDomains := Join domainSlice ",".toList
  let domainNum : Int := domainSlice.length
  match domainSlice with
  | [] =>
    some { proc := ⟨[], [], []⟩, errTotal := 0,
           status := Status.panicked PanicKind.indexOutOfRange }
  | first :: _ =>
    (domainStrOf first domainSlice).bind fun domainStr =>
    (Sprintf "Learning hook process for %s\n".toList [domainStr]).bind fun line =>
    let p0 : Proc := ⟨line, [], []⟩
    match w.stat authHook with
    | StatResult.notExist =>
      (printlnErr "Unable to find auth-hook command %s in the PATH.".toList [authHook]).bind
        fun e1 =>
          (printlnErr "(PATH is %s)".toList [w.getenv "PATH".toList]).map fun e2 =>
            { proc := { p0 with stderr := e1 ++ e2 }, errTotal := 0, status := Status.exited 0 }
    | StatResult.failed =>
      some { proc := p0, errTotal := 0, status := Status.panicked PanicKind.nilDereference }
    | StatResult.found mode =>
      if notExecutable mode then
        (printlnErr "auth-hook command %s exists, but is not executable.".toList [authHook]).map
          fun e => { proc := { p0 with stderr := e }, errTotal := 0, status := Status.exited 0 }
      else
        (hookLoop w authHook allDomains domainNum domainSlice 0 p0 0).map fun r =>
          { proc := r.2, errTotal := r.1, status := Status.returned }

/-! ## Closed forms used in the statements -/

/-- The command that `processAuthHook` builds. -/
def hookCmd (w : World) (authHook domain validation : GoString) (remainingChallenges : Int)
    (allDomains : GoString) : Cmd :=
  { Path := w.abs authHook, Env := hookEnv domain validation remainingChallenges allDomains }

/-- The value `processAuthHook` returns when the run ended as `r`. -/
def errCodeOf (r : RunResult) : Int :=
  match r.err with
  | some _ => 1
  | none => if (TrimRight r.errb "\n".toList).length > 0 then 1 else 0

/-- The commands run by the loop of lines 67-71 from position `i` on. -/
def cmdsFrom (w : World) (authHook allDomains : GoString) (domainNum : Int) :
    List GoString → Nat → List Cmd
  | [], _ => []
  | domain :: rest, i =>
    hookCmd w authHook domain (w.newRandom i) (domainNum - i - 1) allDomains
      :: cmdsFrom w authHook allDomains domainNum rest (i + 1)

/-- The text lines 41-47 compute for a non-empty `domainSlice`. -/
def displayOf (first : GoString) : List GoString → GoString
  | [] => first
  | [second] => first ++ " and ".toList ++ second
  | _ :: _ :: _ => first ++ " and 2 more domains".toList

/-! ## A sample environment -/

/-- A world in which `os.Stat` always answers `st` and every hook run ends
as `r`. -/
def sampleWorld (st : StatResult) (r : RunResult) : World :=
  { stat := fun _ => st
    getenv := fun _ => "/usr/bin".toList
    abs := fun path => "/srv/".toList ++ path
    newRandom := fun n => "token-".toList ++ Itoa n
    run := fun _ _ => r }

/-- A hook run that succeeds and writes nothing. -/
def quietRun : RunResult := { err := none, outb := [], errb := [] }

/-! ## Lemmas on `Sprintf` -/

theorem parsenumLoop_length (seg : List Char) (num : Nat) (isnum : Bool) :
    (parsenumLoop seg num isnum).2.2.length ≤ seg.length := by
  induction seg generalizing num isnum with
  | nil => simp [parsenumLoop]
  | cons c cs ih =>
    unfold parsenumLoop
    split
    · split
      · simp
      · exact Nat.le_succ_of_le (ih _ _)
    · simp

theorem parseArgNumber_length (format : List Char) :
    (parseArgNumber format).2.1.length ≤ format.length := by
  unfold parseArgNumber
  split
  · simp
  · have hdrop : ((format.drop 1).dropWhile (fun c => c != ']')).length ≤ format.length := by
      have h1 := (List.dropWhile_sublist (fun c => c != ']') (l := format.drop 1)).length_le
      have h2 : (format.drop 1).length ≤ format.length := by simp
      omega
    simp only
    split
    · simp
    · rename_i c after hafter
      rw [hafter] at hdrop
      simp only [List.length_cons] at hdrop
      split <;> simp <;> omega

theorem argNumber_length (d : Directive) (numArgs : Nat) :
    (argNumber d numArgs).rest.length ≤ d.rest.length := by
  unfold argNumber
  split
  · rename_i tl hrest
    have h := parseArgNumber_length d.rest
    split
    rename_i index rest ok hparse
    rw [hparse] at h
    split <;> simpa using h
  · simp

theorem parseWidth_length (d : Directive) (numArgs : Nat) :
    (parseWidth d numArgs).1.rest.length ≤ d.rest.length := by
  unfold parseWidth
  split
  · rename_i r hrest
    simp [hrest]
  · split
    rename_i n widPresent r hparse
    have h := parsenumLoop_length d.rest 0 false
    unfold parsenum at hparse
    rw [hparse] at h
    simpa using h

theorem parsePrecision_length (d : Directive) (numArgs : Nat) :
    (parsePrecision d numArgs).1.rest.length ≤ d.rest.length := by
  unfold parsePrecision
  split
  · rename_i r hrest
    have h1 := argNumber_length
      { d with rest := r, goodArgNum := if d.afterIndex then false else d.goodArgNum } numArgs
    simp only at h1 ⊢
    rw [hrest]
    split
    · rename_i r1 hr1
      rw [hr1] at h1
      simp only [List.length_cons] at h1 ⊢
      omega
    · have h := parsenumLoop_length
        (argNumber { d with rest := r,
                            goodArgNum := if d.afterIndex then false else d.goodArgNum }
          numArgs).rest 0 false
      simp only [parsenum, List.length_cons]
      exact Nat.le_succ_of_le (le_trans h h1)
  · simp

theorem skipFlags_length (format : List Char) (sharp : Bool) :
    (skipFlags format sharp).2.length ≤ format.length := by
  induction format generalizing sharp with
  | nil => simp [skipFlags]
  | cons c cs ih =>
    unfold skipFlags
    split
    · exact Nat.le_succ_of_le (ih _)
    · split
      · exact Nat.le_succ_of_le (ih _)
      · simp

theorem beforeVerb_length (d0 : Directive) (numArgs : Nat) :
    (beforeVerb d0 numArgs).1.rest.length ≤ d0.rest.length := by
  have h1 := argNumber_length d0 numArgs
  have h2 := parseWidth_length (argNumber d0 numArgs) numArgs
  have h3 := parsePrecision_length (parseWidth (argNumber d0 numArgs) numArgs).1 numArgs
  have h4 := argNumber_length
    (parsePrecision (parseWidth (argNumber d0 numArgs) numArgs).1 numArgs).1 numArgs
  unfold beforeVerb
  simp only
  split
  · exact le_trans h3 (le_trans h2 h1)
  · exact le_trans h4 (le_trans h3 (le_trans h2 h1))

theorem verbStep_nil (d4 : Directive) (sharp widPresent precPresent : Bool) :
    ∃ d, verbStep d4 [] sharp widPresent precPresent = some d
      ∧ d.rest.length ≤ d4.rest.length := by
  unfold verbStep
  split
  · rename_i h
    exact ⟨_, rfl, by simp [h]⟩
  · rename_i verb r h
    rw [h]
    by_cases hv : verb = '%'
    · rw [if_pos hv]
      exact ⟨_, rfl, by simp⟩
    · rw [if_neg hv]
      by_cases hg : d4.goodArgNum = false
      · rw [if_pos hg]
        exact ⟨_, rfl, by simp⟩
      · rw [if_neg hg, if_pos (by simp)]
        exact ⟨_, rfl, by simp⟩

theorem directive_nil (afterPercent : List Char) (argNum : Nat) (reordered : Bool) :
    ∃ d, directive afterPercent [] argNum reordered = some d
      ∧ d.rest.length ≤ afterPercent.length := by
  have h0 := skipFlags_length afterPercent false
  unfold directive
  rcases hs : skipFlags afterPercent false with ⟨sharp, r0⟩
  rw [hs] at h0
  have hfast : (match r0 with
      | c :: cs => if 'a' ≤ c ∧ c ≤ 'z' ∧ argNum < ([] : List GoString).length
          then some (c, cs) else none
      | [] => none) = none := by
    cases r0 <;> simp
  simp only [hfast]
  have hb := beforeVerb_length
    { rest := r0, argNum := argNum, reordered := reordered, goodArgNum := true,
      afterIndex := false, out := [] } ([] : List GoString).length
  rcases hbv : beforeVerb
    { rest := r0, argNum := argNum, reordered := reordered, goodArgNum := true,
      afterIndex := false, out := [] } ([] : List GoString).length with ⟨d4, wp, pp⟩
  rw [hbv] at hb
  obtain ⟨d, hd, hlen⟩ := verbStep_nil d4 sharp wp pp
  refine ⟨d, hd, ?_⟩
  simp only at hb h0
  omega

theorem doPrintf_nil (fuel : Nat) (format : List Char) (argNum : Nat) (reordered : Bool)
    (h : format.length < fuel) : ∃ s, doPrintf fuel format [] argNum reordered = some s := by
  induction fuel generalizing format argNum reordered with
  | zero => omega
  | succ fuel ih =>
    unfold doPrintf
    simp only
    have hdrop := (List.dropWhile_sublist (fun c => c != '%') (l := format)).length_le
    split
    · exact ⟨_, rfl⟩
    · rename_i c afterPercent hrest
      rw [hrest] at hdrop
      simp only [List.length_cons] at hdrop
      obtain ⟨d, hd, hlen⟩ := directive_nil afterPercent argNum reordered
      obtain ⟨tail, htail⟩ := ih d.rest d.argNum d.reordered (by omega)
      rw [hd]
      simp only [htail]
      exact ⟨_, rfl⟩

/-- With no operand, `Sprintf` has a result for every format. -/
theorem Sprintf_nil (format : GoString) : ∃ s, Sprintf format [] = some s :=
  doPrintf_nil _ format 0 false (Nat.lt_succ_self _)

/-- A format without `%` and without operands is returned as it is. -/
theorem Sprintf_of_no_percent (format : GoString) (h : '%' ∉ format) :
    Sprintf format [] = some format := by
  have htake : format.takeWhile (fun c => c != '%') = format := by
    rw [List.takeWhile_eq_self_iff]
    intro c hc
    simp only [bne_iff_ne, ne_eq]
    rintro rfl
    exact h hc
  have hdrop : format.dropWhile (fun c => c != '%') = [] := by
    rw [List.dropWhile_eq_nil_iff]
    intro c hc
    simp only [bne_iff_ne, ne_eq]
    rintro rfl
    exact h hc
  unfold Sprintf doPrintf
  simp [htake, hdrop, extraOperands]

/-- The second formatting step of `printlnErr`: the message is wrapped in the
escape sequences for red. -/
theorem Sprintf_red (msg : GoString) :
    Sprintf "\x1b[31m%s\x1b[0m\n".toList [msg]
      = some ("\x1b[31m".toList ++ msg ++ "\x1b[0m\n".toList) := rfl

theorem Sprintf_and (x y : GoString) :
    Sprintf "%s and %s".toList [x, y] = some (x ++ " and ".toList ++ y) := by
  have h : Sprintf "%s and %s".toList [x, y]
      = some (x ++ (" and ".toList ++ (y ++ []))) := rfl
  rw [h, List.append_nil, List.append_assoc]

theorem Sprintf_more (x : GoString) :
    Sprintf "%s and 2 more domains".toList [x]
      = some (x ++ " and 2 more domains".toList) := rfl

/-! ## Lemmas on printing and on the hook run -/

theorem printlnErr_nil (format : GoString) : ∃ t, printlnErr format [] = some t := by
  obtain ⟨msg, hmsg⟩ := Sprintf_nil format
  exact ⟨_, by rw [printlnErr, hmsg, Option.some_bind, Sprintf_red]⟩

theorem printlnErr_header (domain : GoString) :
    ∃ t, printlnErr "Hook '--auth-hook' for %s ran with error output:".toList [domain]
      = some t := ⟨_, rfl⟩

theorem Sprintf_header (domain : GoString) :
    ∃ t, Sprintf "Hook '--auth-hook' for %s ran with output:\n".toList [domain] = some t :=
  ⟨_, rfl⟩

theorem TrimRight_ne_nil_iff (s : GoString) :
    TrimRight s "\n".toList ≠ [] ↔ ∃ c ∈ s, c ≠ '\n' := by
  unfold TrimRight
  rw [Ne, List.reverse_eq_nil_iff, List.dropWhile_eq_nil_iff]
  simp

theorem processAuthHook_some (w : World) (p : Proc) (authHook domain validation : GoString)
    (remainingChallenges : Int) (allDomains : GoString) :
    ∃ p1, processAuthHook w p authHook domain validation remainingChallenges allDomains
        = some (errCodeOf (w.run p.runs.length
            (hookCmd w authHook domain validation remainingChallenges allDomains)), p1)
      ∧ p1.runs = p.runs
          ++ [hookCmd w authHook domain validation remainingChallenges allDomains]
      ∧ p.stdout <+: p1.stdout := by
  unfold processAuthHook errCodeOf hookCmd
  simp only
  cases herr : (w.run p.runs.length
      { Path := w.abs authHook,
        Env := hookEnv domain validation remainingChallenges allDomains }).err with
  | some e =>
    obtain ⟨t, ht⟩ := printlnErr_nil e
    simp only [ht, Option.map_some']
    exact ⟨_, rfl, rfl, List.prefix_refl _⟩
  | none =>
    obtain ⟨hd, hhd⟩ := printlnErr_header domain
    obtain ⟨ho, hho⟩ := Sprintf_header domain
    obtain ⟨body, hbody⟩ := printlnErr_nil (TrimRight (w.run p.runs.length
      { Path := w.abs authHook,
        Env := hookEnv domain validation remainingChallenges allDomains }).errb "\n".toList)
    simp only [hhd, hho, hbody, Option.map_some', Option.some_bind]
    split <;> split <;> exact ⟨_, rfl, rfl, by simp⟩

theorem errCodeOf_bounds (r : RunResult) : errCodeOf r = 0 ∨ errCodeOf r = 1 := by
  unfold errCodeOf
  split
  · exact Or.inr rfl
  · split
    · exact Or.inr rfl
    · exact Or.inl rfl

theorem hookLoop_some (w : World) (authHook allDomains : GoString) (domainNum : Int)
    (domains : List GoString) (i : Nat) (p : Proc) (errTotal : Int) :
    ∃ r, hookLoop w authHook allDomains domainNum domains i p errTotal = some r
      ∧ r.2.runs = p.runs ++ cmdsFrom w authHook allDomains domainNum domains i
      ∧ errTotal ≤ r.1 ∧ r.1 ≤ errTotal + domains.length
      ∧ p.stdout <+: r.2.stdout := by
  induction domains generalizing i p errTotal with
  | nil => exact ⟨_, rfl, by simp [cmdsFrom], le_refl _, by simp, List.prefix_refl _⟩
  | cons domain rest ih =>
    obtain ⟨p1, hp, hruns, hpre⟩ := processAuthHook_some w p authHook domain (w.newRandom i)
      (domainNum - i - 1) allDomains
    obtain ⟨r, hr, hrr, hlo, hhi, hpre1⟩ := ih (i + 1) p1
      (errTotal + errCodeOf (w.run p.runs.length
        (hookCmd w authHook domain (w.newRandom i) (domainNum - i - 1) allDomains)))
    refine ⟨r, ?_, ?_, ?_, ?_, hpre.trans hpre1⟩
    · unfold hookLoop
      simp only [hp]
      exact hr
    · rw [hrr, hruns, cmdsFrom, List.append_assoc]
      rfl
    · rcases errCodeOf_bounds (w.run p.runs.length
        (hookCmd w authHook domain (w.newRandom i) (domainNum - i - 1) allDomains)) with h | h
        <;> rw [h] at hlo <;> omega
    · rcases errCodeOf_bounds (w.run p.runs.length
        (hookCmd w authHook domain (w.newRandom i) (domainNum - i - 1) allDomains)) with h | h
        <;> rw [h] at hhi <;> simp only [List.length_cons, Nat.cast_add, Nat.cast_one] <;> omega

theorem cmdsFrom_length (w : World) (authHook allDomains : GoString) (domainNum : Int)
    (domains : List GoString) (i : Nat) :
    (cmdsFrom w authHook allDomains domainNum domains i).length = domains.length := by
  induction domains generalizing i with
  | nil => rfl
  | cons d ds ih => simp [cmdsFrom, ih]

theorem cmdsFrom_getElem? (w : World) (authHook allDomains : GoString) (domainNum : Int)
    (domains : List GoString) (i k : Nat) (domain : GoString) (h : domains[k]? = some domain) :
    (cmdsFrom w authHook allDomains domainNum domains i)[k]?
      = some (hookCmd w authHook domain (w.newRandom (i + k))
          (domainNum - ((i + k : Nat) : Int) - 1) allDomains) := by
  induction domains generalizing i k with
  | nil => simp at h
  | cons d ds ih =>
    cases k with
    | zero =>
      simp only [List.getElem?_cons_zero, Option.some.injEq] at h
      subst h
      simp [cmdsFrom]
    | succ k =>
      simp only [List.getElem?_cons_succ] at h
      have := ih (i + 1) k h
      simp only [cmdsFrom, List.getElem?_cons_succ, this]
      have e : i + 1 + k = i + (k + 1) := by omega
      rw [e]

/-! ## Lemmas on `main` -/

theorem domainStrOf_one (first : GoString) : domainStrOf first [first] = some first := rfl

theorem domainStrOf_two (first second : GoString) :
    domainStrOf first [first, second] = some (first ++ " and ".toList ++ second) := by
  unfold domainStrOf
  simp only [List.length_cons, List.length_nil]
  rw [if_pos (by norm_num)]
  exact Sprintf_and first second

theorem domainStrOf_more (first second third : GoString) (rest : List GoString) :
    domainStrOf first (first :: second :: third :: rest)
      = some (first ++ " and 2 more domains".toList) := by
  unfold domainStrOf
  simp only [List.length_cons]
  rw [if_neg (by push_cast; omega), if_pos (by push_cast; omega)]
  exact Sprintf_more first

theorem domainStrOf_eq (first : GoString) (rest : List GoString) :
    domainStrOf first (first :: rest) = some (displayOf first rest) := by
  match rest with
  | [] => exact domainStrOf_one first
  | [second] => exact domainStrOf_two first second
  | second :: third :: rest => exact domainStrOf_more first second third rest

theorem Sprintf_learning (domainStr : GoString) :
    Sprintf "Learning hook process for %s\n".toList [domainStr]
      = some ("Learning hook process for ".toList ++ domainStr ++ "\n".toList) := rfl

/-- The run of `main` on a non-empty `domainSlice`, by the answer of `os.Stat`. -/
theorem main_cons (w : World) (opt : CliOption) (first : GoString) (rest : List GoString)
    (hds : domainSliceOf opt.Domains = first :: rest) :
    ∃ f, main w opt = some f
      ∧ ("Learning hook process for ".toList ++ displayOf first rest ++ "\n".toList)
          <+: f.proc.stdout
      ∧ (w.stat opt.AuthHook = StatResult.notExist →
          f.status = Status.exited 0 ∧ f.proc.runs = [])
      ∧ (w.stat opt.AuthHook = StatResult.failed →
          f.status = Status.panicked PanicKind.nilDereference ∧ f.proc.runs = [])
      ∧ (∀ mode, w.stat opt.AuthHook = StatResult.found mode → notExecutable mode = true →
          f.status = Status.exited 0 ∧ f.proc.runs = [])
      ∧ (∀ mode, w.stat opt.AuthHook = StatResult.found mode → notExecutable mode = false →
          f.status = Status.returned
          ∧ f.proc.runs = cmdsFrom w opt.AuthHook (Join (first :: rest) ",".toList)
              ((first :: rest).length : Int) (first :: rest) 0)
      ∧ 0 ≤ f.errTotal ∧ f.errTotal ≤ ((first :: rest).length : Int) := by
  unfold main
  simp only [hds, domainStrOf_eq, Option.some_bind, Sprintf_learning]
  cases hstat : w.stat opt.AuthHook with
  | notExist =>
    obtain ⟨e1, he1⟩ : ∃ t, printlnErr "Unable to find auth-hook command %s in the PATH.".toList
        [opt.AuthHook] = some t := ⟨_, rfl⟩
    obtain ⟨e2, he2⟩ : ∃ t, printlnErr "(PATH is %s)".toList [w.getenv "PATH".toList]
        = some t := ⟨_, rfl⟩
    simp only [he1, he2, Option.some_bind, Option.map_some']
    exact ⟨_, rfl, List.prefix_refl _, fun _ => ⟨rfl, rfl⟩, by simp, by simp, by simp,
      le_refl _, by simp only [List.length_cons]; omega⟩
  | failed =>
    exact ⟨_, rfl, List.prefix_refl _, by simp, fun _ => ⟨rfl, rfl⟩, by simp, by simp,
      le_refl _, by simp only [List.length_cons]; omega⟩
  | found mode =>
    simp only
    cases hx : notExecutable mode with
    | true =>
      obtain ⟨e, he⟩ : ∃ t, printlnErr
          "auth-hook command %s exists, but is not executable.".toList [opt.AuthHook]
          = some t := ⟨_, rfl⟩
      simp only [he, if_true, Option.map_some']
      refine ⟨_, rfl, List.prefix_refl _, by simp, by simp, ?_, ?_, le_refl _,
        by simp only [List.length_cons]; omega⟩
      · intro m hm _
        exact ⟨rfl, rfl⟩
      · intro m hm hm2
        simp only [StatResult.found.injEq] at hm
        subst hm
        rw [hx] at hm2
        exact absurd hm2 (by simp)
    | false =>
      obtain ⟨r, hr, hruns, hlo, hhi, hpre⟩ := hookLoop_some w opt.AuthHook
        (Join (first :: rest) ",".toList) ((first :: rest).length : Int) (first :: rest) 0
        ⟨"Learning hook process for ".toList ++ displayOf first rest ++ "\n".toList, [], []⟩ 0
      simp only [Bool.false_eq_true, if_false, hr, Option.map_some']
      refine ⟨_, rfl, hpre, by simp, by simp, ?_, ?_, hlo, by simpa using hhi⟩
      · intro m hm hm2
        simp only [StatResult.found.injEq] at hm
        subst hm
        rw [hx] at hm2
        exact absurd hm2 (by simp)
      · intro m _ _
        exact ⟨rfl, by simpa using hruns⟩

theorem main_nil (w : World) (opt : CliOption) (hds : domainSliceOf opt.Domains = []) :
    main w opt = some { proc := ⟨[], [], []⟩, errTotal := 0,
                        status := Status.panicked PanicKind.indexOutOfRange } := by
  unfold main
  simp only [hds]

/-! ## Lemmas on splitting -/

theorem Split_ne_nil (s : GoString) (sep : Char) : Split s sep ≠ [] := by
  induction s with
  | nil => simp [Split]
  | cons c cs ih =>
    unfold Split
    split
    · simp
    · split <;> simp

theorem Split_length (s : GoString) (sep : Char) :
    (Split s sep).length = s.count sep + 1 := by
  induction s with
  | nil => simp [Split]
  | cons c cs ih =>
    unfold Split
    by_cases h : c = sep
    · subst h
      simp [ih]
    · have hne : Split cs sep ≠ [] := Split_ne_nil cs sep
      rw [if_neg h]
      cases hs : Split cs sep with
      | nil => exact absurd hs hne
      | cons p ps =>
        rw [hs] at ih
        simp only [List.length_cons] at ih ⊢
        rw [List.count_cons_of_ne (Ne.symm h)]
        exact ih

theorem Split_not_mem (s : GoString) (sep : Char) :
    ∀ p ∈ Split s sep, sep ∉ p := by
  induction s with
  | nil => simp [Split]
  | cons c cs ih =>
    unfold Split
    by_cases h : c = sep
    · subst h
      intro p hp
      simp only [if_true, List.mem_cons] at hp
      rcases hp with rfl | hp
      · simp
      · exact ih p hp
    · rw [if_neg h]
      cases hs : Split cs sep with
      | nil => simp [Ne.symm h]
      | cons q qs =>
        rw [hs] at ih
        intro p hp
        simp only [List.mem_cons] at hp
        rcases hp with rfl | hp
        · have hq := ih q (List.mem_cons_self _ _)
          simp [Ne.symm h, hq]
        · exact ih p (List.mem_cons_of_mem _ hp)

theorem Split_of_not_mem (s : GoString) (sep : Char) (h : sep ∉ s) :
    Split s sep = [s] := by
  induction s with
  | nil => simp [Split]
  | cons c cs ih =>
    simp only [List.mem_cons, not_or] at h
    unfold Split
    rw [if_neg (Ne.symm h.1), ih h.2]

theorem foldl_append_Split (domains : List GoString) (init : List GoString) :
    domains.foldl (fun domainSlice item => domainSlice ++ Split item ',') init
      = init ++ (domains.map (fun item => Split item ',')).flatten := by
  induction domains generalizing init with
  | nil => simp
  | cons d ds ih => simp [ih, List.append_assoc]

theorem domainSliceOf_eq (domains : List GoString) :
    domainSliceOf domains = (domains.map (fun item => Split item ',')).flatten := by
  simp [domainSliceOf, foldl_append_Split]

theorem domainSliceOf_cons (d : GoString) (ds : List GoString) :
    domainSliceOf (d :: ds) = Split d ',' ++ domainSliceOf ds := by
  simp [domainSliceOf_eq]

theorem domainSliceOf_of_no_comma (ds : List GoString)
    (h : ∀ d ∈ ds, ',' ∉ d) : domainSliceOf ds = ds := by
  induction ds with
  | nil => rfl
  | cons d ds ih =>
    rw [domainSliceOf_cons, Split_of_not_mem d ',' (h d (List.mem_cons_self _ _)),
      ih (fun e he => h e (List.mem_cons_of_mem _ he))]
    rfl

theorem domainSliceOf_no_comma (domains : List GoString) :
    ∀ d ∈ domainSliceOf domains, ',' ∉ d := by
  intro d hd
  rw [domainSliceOf_eq] at hd
  simp only [List.mem_flatten, List.mem_map] at hd
  obtain ⟨l, ⟨item, _, rfl⟩, hdl⟩ := hd
  exact Split_not_mem item ',' d hdl

theorem domainSliceOf_length (domains : List GoString) :
    (domainSliceOf domains).length
      = domains.length + (domains.map (fun item => item.count ',')).sum := by
  induction domains with
  | nil => rfl
  | cons d ds ih =>
    rw [domainSliceOf_cons, List.length_append, Split_length, ih]
    simp only [List.length_cons, List.map_cons, List.sum_cons]
    omega

/-! ## Lemmas on the commands run -/

theorem main_runs (w : World) (opt : CliOption) (mode : Nat)
    (hstat : w.stat opt.AuthHook = StatResult.found mode) (hexec : notExecutable mode = false) :
    ∃ f, main w opt = some f
      ∧ f.proc.runs = cmdsFrom w opt.AuthHook (Join (domainSliceOf opt.Domains) ",".toList)
          ((domainSliceOf opt.Domains).length : Int) (domainSliceOf opt.Domains) 0
      ∧ (domainSliceOf opt.Domains ≠ [] → f.status = Status.returned) := by
  cases hds : domainSliceOf opt.Domains with
  | nil => exact ⟨_, main_nil w opt hds, rfl, by simp⟩
  | cons first rest =>
    obtain ⟨f, hf, _, _, _, _, hrun, _⟩ := main_cons w opt first rest hds
    exact ⟨f, hf, (hrun mode hstat hexec).2, fun _ => (hrun mode hstat hexec).1⟩

theorem cmdsFrom_map_head (w : World) (authHook allDomains : GoString) (domainNum : Int)
    (domains : List GoString) (i : Nat) :
    (cmdsFrom w authHook allDomains domainNum domains i).map (fun c => c.Env.head?)
      = domains.map fun d => some ("HOOK_DOMAIN=".toList ++ d) := by
  induction domains generalizing i with
  | nil => rfl
  | cons d ds ih =>
    simp only [cmdsFrom, List.map_cons, ih]
    rfl

theorem cmdsFrom_all_domains (w : World) (authHook allDomains : GoString) (domainNum : Int)
    (domains : List GoString) (i : Nat) :
    ∀ c ∈ cmdsFrom w authHook allDomains domainNum domains i,
      c.Env.length = 4 ∧ c.Env[3]? = some ("HOOK_ALL_DOMAINS=".toList ++ allDomains) := by
  induction domains generalizing i with
  | nil => simp [cmdsFrom]
  | cons d ds ih =>
    intro c hc
    simp only [cmdsFrom, List.mem_cons] at hc
    rcases hc with rfl | hc
    · exact ⟨rfl, rfl⟩
    · exact ih (i + 1) c hc

theorem Itoa_of_lt (n i : Nat) (h : i < n) :
    Itoa ((n : Int) - ((i : Nat) : Int) - 1) = Nat.toDigits 10 (n - i - 1) := by
  unfold Itoa
  rw [if_neg (by omega)]
  congr 1
  omega

/-- The test of lines 57-60 lets a hook through exactly when all three
execute bits of its mode are set. -/
theorem notExecutable_eq_false_iff (mode : Nat) :
    notExecutable mode = false
      ↔ mode.testBit 0 = true ∧ mode.testBit 3 = true ∧ mode.testBit 6 = true := by
  have hmask : mode &&& 0o777 &&& 73 = mode &&& 73 := by
    rw [Nat.land_assoc]
    rfl
  unfold notExecutable
  simp only [hmask, bne_eq_false_iff_eq]
  constructor
  · intro h
    have hb : ∀ k, (mode &&& 73).testBit k = Nat.testBit 73 k := fun k => by rw [h]
    have h0 := hb 0
    have h3 := hb 3
    have h6 := hb 6
    rw [Nat.testBit_land] at h0 h3 h6
    have e0 : Nat.testBit 73 0 = true := by decide
    have e3 : Nat.testBit 73 3 = true := by decide
    have e6 : Nat.testBit 73 6 = true := by decide
    rw [e0] at h0
    rw [e3] at h3
    rw [e6] at h6
    simp only [Bool.and_true] at h0 h3 h6
    exact ⟨h0, h3, h6⟩
  · rintro ⟨h0, h3, h6⟩
    apply Nat.eq_of_testBit_eq
    intro k
    rw [Nat.testBit_land]
    by_cases hk : k < 7
    · interval_cases k
      · rw [h0]; rfl
      · rw [show Nat.testBit 73 1 = false by decide, Bool.and_false]
      · rw [show Nat.testBit 73 2 = false by decide, Bool.and_false]
      · rw [h3]; rfl
      · rw [show Nat.testBit 73 4 = false by decide, Bool.and_false]
      · rw [show Nat.testBit 73 5 = false by decide, Bool.and_false]
      · rw [h6]; rfl
    · have : Nat.testBit 73 k = false :=
        Nat.testBit_lt_two_pow (lt_of_lt_of_le (by norm_num : 73 < 2 ^ 7)
          (Nat.pow_le_pow_right (by norm_num) (by omega)))
      rw [this, Bool.and_false]

theorem errCodeOf_eq_one_iff (r : RunResult) :
    errCodeOf r = 1 ↔ (r.err ≠ none ∨ TrimRight r.errb "\n".toList ≠ []) := by
  unfold errCodeOf
  cases r.err with
  | some e => simp
  | none =>
    by_cases h : TrimRight r.errb "\n".toList = []
    · simp [h]
    · have hpos : (TrimRight r.errb "\n".toList).length > 0 := List.length_pos.mpr h
      simp [h, hpos]

theorem main_errTotal (w : World) (opt : CliOption) :
    ∃ f, main w opt = some f
      ∧ 0 ≤ f.errTotal ∧ f.errTotal ≤ ((domainSliceOf opt.Domains).length : Int) := by
  cases hds : domainSliceOf opt.Domains with
  | nil => exact ⟨_, main_nil w opt hds, le_refl _, le_refl _⟩
  | cons first rest =>
    obtain ⟨f, hf, _, _, _, _, _, hlo, hhi⟩ := main_cons w opt first rest hds
    exact ⟨f, hf, hlo, hhi⟩

/-! ## The claims -/

/-- C4: flattening the list of all comma-separated pieces of `xs` gives the same
list as flattening `xs`; flattening is idempotent; and no element of the
flattened list contains a comma. -/
theorem C4_flatten_idempotent (xs : List GoString) :
    domainSliceOf ((xs.map fun x => Split x ',').flatten) = domainSliceOf xs
      ∧ domainSliceOf (domainSliceOf xs) = domainSliceOf xs
      ∧ ∀ d ∈ domainSliceOf xs, ',' ∉ d := by
  have hidem : domainSliceOf (domainSliceOf xs) = domainSliceOf xs :=
    domainSliceOf_of_no_comma _ (domainSliceOf_no_comma xs)
  refine ⟨?_, hidem, domainSliceOf_no_comma xs⟩
  rw [← domainSliceOf_eq]
  exact hidem

/-- C10: the flattened list has as many elements as there are specifiers plus
commas in them; for a non-empty specifier list it is non-empty and `main` does
not panic on the read `domainSlice[0]`; for an empty specifier list it is
empty and `main` panics on that read. -/
theorem C10_first_read (w : World) (opt : CliOption) :
    (domainSliceOf opt.Domains).length
        = opt.Domains.length + (opt.Domains.map fun item => item.count ',').sum
      ∧ (opt.Domains ≠ [] →
          domainSliceOf opt.Domains ≠ []
          ∧ ∃ f, main w opt = some f
              ∧ f.status ≠ Status.panicked PanicKind.indexOutOfRange)
      ∧ (opt.Domains = [] →
          domainSliceOf opt.Domains = []
          ∧ ∃ f, main w opt = some f
              ∧ f.status = Status.panicked PanicKind.indexOutOfRange) := by
  refine ⟨domainSliceOf_length opt.Domains, ?_, ?_⟩
  · intro hne
    have hlen := domainSliceOf_length opt.Domains
    have hpos : 0 < opt.Domains.length := List.length_pos.mpr hne
    have hds : domainSliceOf opt.Domains ≠ [] := by
      intro h
      rw [h] at hlen
      simp only [List.length_nil] at hlen
      omega
    refine ⟨hds, ?_⟩
    obtain ⟨first, rest, hcons⟩ := List.exists_cons_of_ne_nil hds
    obtain ⟨f, hf, _, hne1, hfail, hrej, hrun, _⟩ := main_cons w opt first rest hcons
    refine ⟨f, hf, ?_⟩
    cases hstat : w.stat opt.AuthHook with
    | notExist => rw [(hne1 hstat).1]; simp
    | failed => rw [(hfail hstat).1]; simp
    | found mode =>
      cases hx : notExecutable mode with
      | true => rw [(hrej mode hstat hx).1]; simp
      | false => rw [(hrun mode hstat hx).1]; simp
  · intro hnil
    have hds : domainSliceOf opt.Domains = [] := by rw [hnil]; rfl
    exact ⟨hds, _, main_nil w opt hds, rfl⟩

/-- C10, at two specifiers, one empty and one made of two commas: the
flattened list has four (empty) elements and `main` gets past line 42. -/
theorem C10_first_read_witness :
    ([[], ",,".toList] : List GoString) ≠ []
      ∧ (domainSliceOf [[], ",,".toList]).length = 4
      ∧ domainSliceOf [[], ",,".toList] ≠ [] :=
  have h := C10_first_read (sampleWorld (StatResult.found 0o755) quietRun)
    { AuthHook := "hook.sh".toList, Domains := [[], ",,".toList] }
  ⟨by decide, h.1.trans (by decide), (h.2.1 (by decide)).1⟩

/-- C2: for a flattened list `first :: rest` built by `main`, the text computed
on lines 41-47 is `first` alone for one domain, `first and second` for two,
and `first and 2 more domains` for three or more, whatever their number; and
`main` prints it in its first line of output. -/
theorem C2_display_string (w : World) (opt : CliOption) (first : GoString)
    (rest : List GoString) (hds : domainSliceOf opt.Domains = first :: rest) :
    (rest = [] → domainStrOf first (first :: rest) = some first)
      ∧ (∀ second, rest = [second] →
          domainStrOf first (first :: rest) = some (first ++ " and ".toList ++ second))
      ∧ (2 ≤ rest.length →
          domainStrOf first (first :: rest) = some (first ++ " and 2 more domains".toList))
      ∧ ∃ f domainStr, main w opt = some f
          ∧ domainStrOf first (first :: rest) = some domainStr
          ∧ ("Learning hook process for ".toList ++ domainStr ++ "\n".toList)
              <+: f.proc.stdout := by
  refine ⟨?_, ?_, ?_, ?_⟩
  · rintro rfl
    exact domainStrOf_one first
  · rintro second rfl
    exact domainStrOf_two first second
  · intro h
    match rest, h with
    | second :: third :: rest, _ => exact domainStrOf_more first second third rest
  · obtain ⟨f, hf, hpre, _⟩ := main_cons w opt first rest hds
    exact ⟨f, _, hf, domainStrOf_eq first rest, hpre⟩

/-- C2, at the single specifier `a.com,b.com`: the text is `a.com and b.com`. -/
theorem C2_display_string_witness :
    domainSliceOf ["a.com,b.com".toList] = ["a.com".toList, "b.com".toList]
      ∧ domainStrOf "a.com".toList ["a.com".toList, "b.com".toList]
          = some "a.com and b.com".toList :=
  have hds : domainSliceOf ["a.com,b.com".toList] = ["a.com".toList, "b.com".toList] := by
    decide
  ⟨hds, (C2_display_string (sampleWorld (StatResult.found 0o755) quietRun)
    { AuthHook := "hook.sh".toList, Domains := ["a.com,b.com".toList] }
    "a.com".toList ["b.com".toList] hds).2.1 "b.com".toList rfl⟩

/-- C8: with four domains the text computed on lines 41-47 ends in
`2 more domains`, although three more domains follow the first. -/
theorem C8_four_domains :
    domainSliceOf ["a.com,b.com,c.com,d.com".toList]
        = ["a.com".toList, "b.com".toList, "c.com".toList, "d.com".toList]
      ∧ domainStrOf "a.com".toList
          ["a.com".toList, "b.com".toList, "c.com".toList, "d.com".toList]
        = some "a.com and 2 more domains".toList
      ∧ domainStrOf "a.com".toList
          ["a.com".toList, "b.com".toList, "c.com".toList, "d.com".toList]
        ≠ some "a.com and 3 more domains".toList
      ∧ (main (sampleWorld (StatResult.found 0o755) quietRun)
            { AuthHook := "hook.sh".toList,
              Domains := ["a.com,b.com,c.com,d.com".toList] }).map (fun f => f.proc.stdout)
          = some "Learning hook process for a.com and 2 more domains
".toList := by
  refine ⟨by decide, by decide, by decide, by rfl⟩

/-- C3: when the hook passes validation, the run made for the domain at position
`i` of a flattened list of length `N` gets `HOOK_REMAINING_CHALLENGES` equal to
the decimal text of `N - i - 1`; the run for the last domain gets `0`; and
every later run gets a strictly smaller number. -/
theorem C3_remaining_challenges (w : World) (opt : CliOption) (mode : Nat)
    (hstat : w.stat opt.AuthHook = StatResult.found mode) (hexec : notExecutable mode = false)
    (i : Nat) (hi : i < (domainSliceOf opt.Domains).length) :
    ∃ f cmd, main w opt = some f ∧ f.proc.runs[i]? = some cmd
      ∧ cmd.Env[2]? = some ("HOOK_REMAINING_CHALLENGES=".toList
          ++ Nat.toDigits 10 ((domainSliceOf opt.Domains).length - i - 1))
      ∧ (i + 1 = (domainSliceOf opt.Domains).length →
          cmd.Env[2]? = some "HOOK_REMAINING_CHALLENGES=0".toList)
      ∧ ∀ j later, i < j → f.proc.runs[j]? = some later →
          ∃ r, later.Env[2]? = some ("HOOK_REMAINING_CHALLENGES=".toList ++ Nat.toDigits 10 r)
            ∧ r < (domainSliceOf opt.Domains).length - i - 1 := by
  obtain ⟨f, hf, hruns, _⟩ := main_runs w opt mode hstat hexec
  have hat : ∀ k, k < (domainSliceOf opt.Domains).length →
      ∃ c, f.proc.runs[k]? = some c
        ∧ c.Env[2]? = some ("HOOK_REMAINING_CHALLENGES=".toList
            ++ Nat.toDigits 10 ((domainSliceOf opt.Domains).length - k - 1)) := by
    intro k hk
    have hget := cmdsFrom_getElem? w opt.AuthHook (Join (domainSliceOf opt.Domains) ",".toList)
      ((domainSliceOf opt.Domains).length : Int) (domainSliceOf opt.Domains) 0 k
      ((domainSliceOf opt.Domains)[k]) (List.getElem?_eq_getElem hk)
    rw [← hruns] at hget
    refine ⟨_, hget, ?_⟩
    simp only [hookCmd, hookEnv, Nat.zero_add]
    rw [Itoa_of_lt _ _ hk]
    rfl
  obtain ⟨cmd, hcmd, henv⟩ := hat i hi
  refine ⟨f, cmd, hf, hcmd, henv, ?_, ?_⟩
  · intro hlast
    rw [henv]
    have : (domainSliceOf opt.Domains).length - i - 1 = 0 := by omega
    rw [this]
    rfl
  · intro j later hij hlater
    have hj : j < (domainSliceOf opt.Domains).length := by
      have hlen : j < f.proc.runs.length := by
        rcases Nat.lt_or_ge j f.proc.runs.length with h | h
        · exact h
        · rw [List.getElem?_eq_none h] at hlater
          exact absurd hlater (by simp)
      rw [hruns, cmdsFrom_length] at hlen
      exact hlen
    obtain ⟨c, hc, hcenv⟩ := hat j hj
    rw [hc] at hlater
    simp only [Option.some.injEq] at hlater
    subst hlater
    exact ⟨_, hcenv, by omega⟩

/-- C3, for `-d a.com,b.com`: the first run gets `1`, and so the second
(last) run a smaller number. -/
theorem C3_remaining_challenges_witness :
    ∃ f cmd,
      main (sampleWorld (StatResult.found 0o755) quietRun)
          { AuthHook := "hook.sh".toList, Domains := ["a.com,b.com".toList] } = some f
        ∧ f.proc.runs[0]? = some cmd
        ∧ cmd.Env[2]? = some "HOOK_REMAINING_CHALLENGES=1".toList := by
  obtain ⟨f, cmd, hf, hcmd, henv, _⟩ :=
    C3_remaining_challenges (sampleWorld (StatResult.found 0o755) quietRun)
      { AuthHook := "hook.sh".toList, Domains := ["a.com,b.com".toList] } 0o755 rfl
      (by decide) 0 (by decide)
  exact ⟨f, cmd, hf, hcmd, henv.trans (by decide)⟩

/-- C5: when the hook passes validation, whatever each hook run does (the
outcomes `w.run` are arbitrary: launch failure, non-zero exit, error output
or success), the hook is run exactly once per domain of the flattened list,
in list order, and `main` returns. -/
theorem C5_every_domain_invoked (w : World) (opt : CliOption) (mode : Nat)
    (hstat : w.stat opt.AuthHook = StatResult.found mode)
    (hexec : notExecutable mode = false) :
    ∃ f, main w opt = some f
      ∧ f.proc.runs.length = (domainSliceOf opt.Domains).length
      ∧ f.proc.runs.map (fun c => c.Env.head?)
          = (domainSliceOf opt.Domains).map (fun d => some ("HOOK_DOMAIN=".toList ++ d))
      ∧ (domainSliceOf opt.Domains ≠ [] → f.status = Status.returned) := by
  obtain ⟨f, hf, hruns, hstatus⟩ := main_runs w opt mode hstat hexec
  refine ⟨f, hf, ?_, ?_, hstatus⟩
  · rw [hruns, cmdsFrom_length]
  · rw [hruns, cmdsFrom_map_head]

/-- C5, for three domains and a hook that fails to start every time: the hook
is still run three times. -/
theorem C5_every_domain_invoked_witness :
    ∃ f,
      main (sampleWorld (StatResult.found 0o755)
              { err := some "exit status 1".toList, outb := [], errb := [] })
          { AuthHook := "hook.sh".toList, Domains := ["a.com".toList, "b.com,c.com".toList] }
          = some f
        ∧ f.proc.runs.length = 3 := by
  obtain ⟨f, hf, hlen, _⟩ :=
    C5_every_domain_invoked
      (sampleWorld (StatResult.found 0o755)
        { err := some "exit status 1".toList, outb := [], errb := [] })
      { AuthHook := "hook.sh".toList, Domains := ["a.com".toList, "b.com,c.com".toList] }
      0o755 rfl (by decide)
  exact ⟨f, hf, hlen.trans (by decide)⟩

/-- C7: when the hook passes validation, the run for the domain at position `i`
gets an environment of exactly four entries, `HOOK_DOMAIN`, `HOOK_VALIDATION`,
`HOOK_REMAINING_CHALLENGES` and `HOOK_ALL_DOMAINS`; and every run of the
process gets the same `HOOK_ALL_DOMAINS`, the flattened list joined with `,`. -/
theorem C7_hook_environment (w : World) (opt : CliOption) (mode : Nat)
    (hstat : w.stat opt.AuthHook = StatResult.found mode) (hexec : notExecutable mode = false)
    (i : Nat) (domain : GoString) (hi : (domainSliceOf opt.Domains)[i]? = some domain) :
    ∃ f, main w opt = some f
      ∧ f.proc.runs[i]? = some
          { Path := w.abs opt.AuthHook
            Env := [ "HOOK_DOMAIN=".toList ++ domain,
                     "HOOK_VALIDATION=".toList ++ w.newRandom i,
                     "HOOK_REMAINING_CHALLENGES=".toList
                       ++ Itoa (((domainSliceOf opt.Domains).length : Int) - (i : Int) - 1),
                     "HOOK_ALL_DOMAINS=".toList
                       ++ Join (domainSliceOf opt.Domains) ",".toList ] }
      ∧ ∀ c ∈ f.proc.runs,
          c.Env.length = 4
          ∧ c.Env[3]? = some ("HOOK_ALL_DOMAINS=".toList
              ++ Join (domainSliceOf opt.Domains) ",".toList) := by
  obtain ⟨f, hf, hruns, _⟩ := main_runs w opt mode hstat hexec
  refine ⟨f, hf, ?_, ?_⟩
  · have hget := cmdsFrom_getElem? w opt.AuthHook (Join (domainSliceOf opt.Domains) ",".toList)
      ((domainSliceOf opt.Domains).length : Int) (domainSliceOf opt.Domains) 0 i domain hi
    rw [← hruns] at hget
    rw [hget]
    simp only [hookCmd, hookEnv, Nat.zero_add]
  · rw [hruns]
    exact cmdsFrom_all_domains _ _ _ _ _ _

/-- C7, for `-d a.com,b.com`: both runs get `HOOK_ALL_DOMAINS=a.com,b.com`. -/
theorem C7_hook_environment_witness :
    ∃ f,
      main (sampleWorld (StatResult.found 0o755) quietRun)
          { AuthHook := "hook.sh".toList, Domains := ["a.com,b.com".toList] } = some f
        ∧ ∀ c ∈ f.proc.runs, c.Env[3]? = some "HOOK_ALL_DOMAINS=a.com,b.com".toList := by
  obtain ⟨f, hf, _, hall⟩ :=
    C7_hook_environment (sampleWorld (StatResult.found 0o755) quietRun)
      { AuthHook := "hook.sh".toList, Domains := ["a.com,b.com".toList] } 0o755 rfl
      (by decide) 0 "a.com".toList (by decide)
  exact ⟨f, hf, fun c hc => (hall c hc).2.trans (by decide)⟩

/-- C6: `processAuthHook` returns 1 exactly when the hook run reported an error
or the captured standard error, without its trailing newlines, is not empty,
that is, holds a character other than a newline; otherwise it returns 0.  A
run that succeeds and writes only `ok` to standard output returns 0 and has
the text printed.  The total `errTotal` of `main` lies between 0 and the
number of domains. -/
theorem C6_error_code (w : World) (p : Proc) (authHook domain validation : GoString)
    (remainingChallenges : Int) (allDomains : GoString) (opt : CliOption) :
    (∃ errCode p1,
        processAuthHook w p authHook domain validation remainingChallenges allDomains
          = some (errCode, p1)
        ∧ (errCode = 1 ↔
            ((w.run p.runs.length
                (hookCmd w authHook domain validation remainingChallenges allDomains)).err
                ≠ none
              ∨ TrimRight (w.run p.runs.length
                  (hookCmd w authHook domain validation remainingChallenges allDomains)).errb
                  "\n".toList ≠ []))
        ∧ (errCode = 0 ∨ errCode = 1))
      ∧ (∀ errb : GoString, TrimRight errb "\n".toList ≠ [] ↔ ∃ c ∈ errb, c ≠ '\n')
      ∧ (processAuthHook
            (sampleWorld (StatResult.found 0o755)
              { err := none, outb := "ok".toList, errb := [] })
            ⟨[], [], []⟩ "hook.sh".toList "x.com".toList "token-0".toList 0
            "x.com".toList).map (fun r => (r.1, r.2.stdout, r.2.stderr))
          = some (0, "Hook '--auth-hook' for x.com ran with output:\nok\n".toList, [])
      ∧ ∃ f, main w opt = some f
          ∧ 0 ≤ f.errTotal ∧ f.errTotal ≤ ((domainSliceOf opt.Domains).length : Int) := by
  refine ⟨?_, TrimRight_ne_nil_iff, by rfl, main_errTotal w opt⟩
  obtain ⟨p1, hp, _⟩ :=
    processAuthHook_some w p authHook domain validation remainingChallenges allDomains
  exact ⟨_, p1, hp, errCodeOf_eq_one_iff _, (errCodeOf_bounds _).imp id id⟩

/-- C1: a hook whose mode is `0750` has the owner and group execute bits set,
yet the test of lines 57-60 turns it away: `main` prints the not-executable
message, calls `os.Exit(0)` and runs nothing. -/
theorem C1_owner_executable_rejected :
    Nat.testBit 0o750 6 = true
      ∧ notExecutable 0o750 = true
      ∧ (main (sampleWorld (StatResult.found 0o750) quietRun)
            { AuthHook := "hook.sh".toList, Domains := ["a.com".toList] }).map
            (fun f => (f.status, f.proc.runs, f.proc.stderr))
          = some (Status.exited 0, [],
              "\x1b[31mauth-hook command hook.sh exists, but is not executable.\x1b[0m\n".toList)
      := by
  refine ⟨by decide, by decide, by rfl⟩

/-- C9: a hook that succeeds and writes `progress: 100%` to standard error has
the text printed as `progress: 100%!(NOVERB)`, because `printlnErr` uses it as
a format; the same text on standard output is printed unchanged. -/
theorem C9_percent_in_error_output :
    (processAuthHook
        (sampleWorld (StatResult.found 0o755)
          { err := none, outb := [], errb := "progress: 100%\n".toList })
        ⟨[], [], []⟩ "hook.sh".toList "x.com".toList "token-0".toList 0
        "x.com".toList).map (fun r => r.2.stderr)
        = some ("\x1b[31mHook '--auth-hook' for x.com ran with error output:\x1b[0m\n".toList
            ++ "\x1b[31mprogress: 100%!(NOVERB)\x1b[0m\n".toList)
      ∧ printlnErr "progress: 100%".toList []
          ≠ some ("\x1b[31m".toList ++ "progress: 100%".toList ++ "\x1b[0m\n".toList)
      ∧ (processAuthHook
          (sampleWorld (StatResult.found 0o755)
            { err := none, outb := "progress: 100%\n".toList, errb := [] })
          ⟨[], [], []⟩ "hook.sh".toList "x.com".toList "token-0".toList 0
          "x.com".toList).map (fun r => r.2.stdout)
        = some ("Hook '--auth-hook' for x.com ran with output:\n".toList
            ++ "progress: 100%\n".toList) := by
  refine ⟨by rfl, by decide, by rfl⟩

end GoHook
